import Mathlib

/-!
Verification of the PDF-Translator repository core logic.

Python strings are modelled as lists of characters, Python ints as `Int`
(or `Nat` for values that are always non-negative, such as list indices),
Python floats as exact rationals where the float computation is exact at
the compared scale, and code that may raise as `Option`-valued functions.
Each definition is a shallow embedding of the named source function.
-/

namespace PdfTranslator

/-- A Python string, modelled as its list of characters. -/
abbrev PyStr := List Char

/-- `str.strip()`: drop leading and trailing whitespace characters. -/
def pyStrip (s : PyStr) : PyStr :=
  ((s.dropWhile Char.isWhitespace).reverse.dropWhile Char.isWhitespace).reverse

/-- `str.isdigit()`: true iff the string is nonempty and every character is a
digit (decimal digits model Python's digit class). -/
def pyIsDigit (s : PyStr) : Bool :=
  !s.isEmpty && s.all Char.isDigit

namespace TextTranslator

/-!
Model of `pdf_translator/core/text_translator.py`.

The `deep_translator.GoogleTranslator` backend is an arbitrary environment:
`batch` returns `none` when `translate_batch` raises, and otherwise the list
of returned items, each of which may be `None` (`Option.none` inside) or a
string (possibly empty, hence falsy).  `single` likewise models
`translator.translate` for one string.
-/

/-- Behaviour of the `GoogleTranslator` backend. -/
structure Backend where
  batch : List PyStr → Option (List (Option PyStr))
  single : PyStr → Option (Option PyStr)

/-- Python truthiness of a translation result (`None` and `""` are falsy). -/
def truthy : Option PyStr → Bool
  | none => false
  | some s => !s.isEmpty

/-- `TextTranslator._should_skip`: trimmed length < 2 or all digits. -/
def should_skip (text : PyStr) : Bool :=
  (pyStrip text).length < 2 || pyIsDigit (pyStrip text)

/-- The `(index, text)` pairs of the input that are not skipped; the loop in
`translate_batch` builds `translatable_indices` and `translatable_texts`
from exactly these pairs, in order. -/
def translatable (texts : List PyStr) : List (Nat × PyStr) :=
  texts.enum.filter (fun p => !should_skip p.2)

/-- The list of texts actually sent to the backend batch call
(`translatable_texts` in the source). -/
def sentTexts (texts : List PyStr) : List PyStr :=
  (translatable texts).map Prod.snd

/-- A fold that sets `results[idx] := f idx v` for each pair `(idx, v)`,
the shape shared by the two result-update loops in the source. -/
def setFold (f : Nat → α → PyStr) (pairs : List (Nat × α))
    (init : List PyStr) : List PyStr :=
  pairs.foldl (fun r p => r.set p.1 (f p.1 p.2)) init

/-- The success branch of `translate_batch`:
`for idx, trans in zip(translatable_indices, translated):
   results[idx] = trans if trans else texts[idx]`. -/
def applyBatch (texts : List PyStr) (pairs : List (Nat × Option PyStr))
    (results : List PyStr) : List PyStr :=
  setFold (fun idx trans => if truthy trans then trans.getD [] else texts.getD idx [])
    pairs results

/-- `TextTranslator._translate_individually`: each call that raises or
returns a falsy value puts back the original text. -/
def translate_individually (b : Backend) (pairs : List (Nat × PyStr))
    (originals : List PyStr) (results : List PyStr) : List PyStr :=
  setFold (fun idx text =>
      match b.single text with
      | some res => if truthy res then res.getD [] else originals.getD idx []
      | none => originals.getD idx [])
    pairs results

/-- `TextTranslator.translate_batch`.  The pre-filled `results` array holds
each skipped text at its own index and `""` elsewhere; the `translatable`
pairs provide `translatable_indices` and `translatable_texts`. -/
def translate_batch (b : Backend) (texts : List PyStr) : List PyStr :=
  if texts.isEmpty then []
  else if (sentTexts texts).isEmpty then
    texts.map (fun t => if should_skip t then t else [])
  else
    match b.batch (sentTexts texts) with
    | some translated =>
        applyBatch texts (((translatable texts).map Prod.fst).zip translated)
          (texts.map (fun t => if should_skip t then t else []))
    | none =>
        translate_individually b
          (((translatable texts).map Prod.fst).zip (sentTexts texts)) texts
          (texts.map (fun t => if should_skip t then t else []))

/-- `TextTranslator.translate`. -/
def translate (b : Backend) (text : PyStr) : PyStr :=
  if should_skip text then text
  else
    match b.single text with
    | some res => if truthy res then res.getD [] else text
    | none => text

/-- Number of non-skipped positions strictly before position `i`; this is
the position of `i` among `translatable_indices`. -/
def rankOf (texts : List PyStr) (i : Nat) : Nat :=
  ((texts.take i).filter (fun t => !should_skip t)).length

theorem setFold_length (f : Nat → α → PyStr) (pairs : List (Nat × α))
    (init : List PyStr) : (setFold f pairs init).length = init.length := by
  induction pairs generalizing init with
  | nil => rfl
  | cons p ps ih =>
      simp only [setFold, List.foldl_cons] at ih ⊢
      rw [ih, List.length_set]

theorem setFold_getElem?_not_mem (f : Nat → α → PyStr) (pairs : List (Nat × α))
    (init : List PyStr) (i : Nat) (h : ∀ p ∈ pairs, p.1 ≠ i) :
    (setFold f pairs init)[i]? = init[i]? := by
  induction pairs generalizing init with
  | nil => rfl
  | cons p ps ih =>
      simp only [setFold, List.foldl_cons] at ih ⊢
      rw [ih _ (fun q hq => h q (List.mem_cons_of_mem p hq)),
        List.getElem?_set_ne (h p (List.mem_cons_self p ps))]

theorem setFold_getElem?_mem (f : Nat → α → PyStr) {pairs : List (Nat × α)}
    {i : Nat} {v : α} (init : List PyStr)
    (hnd : (pairs.map Prod.fst).Nodup) (hmem : (i, v) ∈ pairs)
    (hi : i < init.length) :
    (setFold f pairs init)[i]? = some (f i v) := by
  induction pairs generalizing init with
  | nil => cases hmem
  | cons p ps ih =>
      simp only [List.map_cons, List.nodup_cons] at hnd
      rcases List.mem_cons.1 hmem with rfl | hmem
      · simp only [setFold, List.foldl_cons]
        have hnm : ∀ q ∈ ps, q.1 ≠ (i, v).1 := by
          intro q hq hqe
          exact hnd.1 (hqe ▸ List.mem_map_of_mem Prod.fst hq)
        rw [show List.foldl (fun r p => r.set p.1 (f p.1 p.2))
              (init.set i (f i v)) ps
            = setFold f ps (init.set i (f i v)) from rfl,
          setFold_getElem?_not_mem f ps _ i hnm,
          List.getElem?_set_self (by simpa using hi)]
      · simp only [setFold, List.foldl_cons]
        exact ih (init.set p.1 (f p.1 p.2)) hnd.2 hmem (by simpa using hi)

theorem mem_translatable {texts : List PyStr} {p : Nat × PyStr}
    (h : p ∈ translatable texts) :
    p.1 < texts.length ∧ texts[p.1]? = some p.2 ∧ should_skip p.2 = false := by
  rcases List.mem_filter.1 h with ⟨henum, hskip⟩
  rw [List.enum_eq_enumFrom] at henum
  obtain ⟨x, y⟩ := p
  rcases List.mem_enumFrom henum with ⟨-, hlt, hy⟩
  simp only [Nat.zero_add, Nat.sub_zero] at hlt hy
  refine ⟨hlt, ?_, by simpa using hskip⟩
  rw [List.getElem?_eq_getElem hlt]
  exact congrArg some hy.symm

theorem translatable_map_fst_nodup (texts : List PyStr) :
    ((translatable texts).map Prod.fst).Nodup := by
  have hsub : ((translatable texts).map Prod.fst).Sublist
      (texts.enum.map Prod.fst) :=
    List.Sublist.map Prod.fst (List.filter_sublist texts.enum)
  rw [List.enum_map_fst] at hsub
  exact List.Nodup.sublist hsub (List.nodup_range texts.length)

theorem enumFrom_filter_rank (texts : List PyStr) (n i : Nat)
    (hi : i < texts.length) (hs : should_skip texts[i] = false) :
    ((List.enumFrom n texts).filter (fun p => !should_skip p.2))[
      ((texts.take i).filter (fun t => !should_skip t)).length]?
      = some (n + i, texts[i]) := by
  induction texts generalizing n i with
  | nil => cases hi
  | cons t ts ih =>
      cases i with
      | zero =>
          simp only [List.getElem_cons_zero] at hs
          simp [List.filter_cons, hs]
      | succ j =>
          simp only [List.getElem_cons_succ] at hs ⊢
          have hj : j < ts.length := Nat.lt_of_succ_lt_succ hi
          have ihj := ih (n + 1) j hj hs
          have harith : n + 1 + j = n + (j + 1) := by omega
          rw [harith] at ihj
          cases hsk : should_skip t
          · simpa [List.take_succ_cons, List.enumFrom_cons, List.filter_cons,
              hsk] using ihj
          · simpa [List.take_succ_cons, List.enumFrom_cons, List.filter_cons,
              hsk] using ihj

theorem translatable_getElem? (texts : List PyStr) (i : Nat)
    (hi : i < texts.length) (hs : should_skip texts[i] = false) :
    (translatable texts)[rankOf texts i]? = some (i, texts[i]) := by
  have := enumFrom_filter_rank texts 0 i hi hs
  rw [Nat.zero_add] at this
  simpa [translatable, rankOf, List.enum_eq_enumFrom] using this

/-- C1: `translate_batch` always returns a list of the same length as its
input, for every behaviour of the translation backend (the model is total:
every exception raised by the backend is caught in the source). -/
theorem translate_batch_length (b : Backend) (texts : List PyStr) :
    (translate_batch b texts).length = texts.length := by
  unfold translate_batch
  by_cases hemp : texts.isEmpty
  · rw [if_pos hemp, List.isEmpty_iff.1 hemp]
  · rw [if_neg hemp]
    by_cases hsent : (sentTexts texts).isEmpty
    · rw [if_pos hsent, List.length_map]
    · rw [if_neg hsent]
      cases b.batch (sentTexts texts) with
      | some translated =>
          simp only [applyBatch, setFold_length, List.length_map]
      | none =>
          simp only [translate_individually, setFold_length, List.length_map]

/-- C2: for every non-skipped position `i`: if the backend batch call
succeeds (returning one item per sent text), `translate_batch` puts the
backend's translation for `texts[i]` at index `i` when it is non-falsy and
the original `texts[i]` when it is falsy; if the batch call raises, each
non-skipped item is retried individually and index `i` receives the
individual result when non-falsy, and the original `texts[i]` when that
call returns a falsy value or raises.  No backend error escapes and no
position is left empty unless its original was. -/
theorem translate_batch_fallback (b : Backend) (texts : List PyStr) (i : Nat)
    (hi : i < texts.length) (hs : should_skip texts[i] = false) :
    (∀ translated, b.batch (sentTexts texts) = some translated →
        translated.length = (sentTexts texts).length →
        ∃ v, translated[rankOf texts i]? = some v ∧
          (translate_batch b texts)[i]? =
            some (if truthy v then v.getD [] else texts[i])) ∧
    (b.batch (sentTexts texts) = none →
        (translate_batch b texts)[i]? =
          some (match b.single texts[i] with
                | some res => if truthy res then res.getD [] else texts[i]
                | none => texts[i])) := by
  have htr := translatable_getElem? texts i hi hs
  obtain ⟨hrank, hgetr⟩ := List.getElem?_eq_some_iff.1 htr
  have hne : texts ≠ [] := by
    intro h
    subst h
    cases hi
  have hemp : texts.isEmpty = false := List.isEmpty_eq_false.2 hne
  have hidx : ((translatable texts).map Prod.fst)[rankOf texts i]? = some i := by
    rw [List.getElem?_map, htr]
    rfl
  have httx : (sentTexts texts)[rankOf texts i]? = some texts[i] := by
    rw [sentTexts, List.getElem?_map, htr]
    rfl
  obtain ⟨hranks, hgets⟩ := List.getElem?_eq_some_iff.1 httx
  have hsent : (sentTexts texts).isEmpty = false :=
    List.isEmpty_eq_false.2 (List.ne_nil_of_length_pos (Nat.lt_of_le_of_lt
      (Nat.zero_le _) hranks))
  obtain ⟨hranki, hgeti⟩ := List.getElem?_eq_some_iff.1 hidx
  have hinit : (texts.map (fun t => if should_skip t then t else [])).length
      = texts.length := List.length_map texts _
  constructor
  · intro translated hbatch hlen
    have hrankt : rankOf texts i < translated.length := by
      rw [hlen]
      exact hranks
    refine ⟨translated[rankOf texts i], List.getElem?_eq_getElem hrankt, ?_⟩
    have hlen2 : ((translatable texts).map Prod.fst).length
        = translated.length := by
      rw [List.length_map, hlen, sentTexts, List.length_map]
    have hzrank : rankOf texts i
        < (((translatable texts).map Prod.fst).zip translated).length := by
      rw [List.length_zip, hlen2, Nat.min_self]
      exact hrankt
    have hmemz : (i, translated[rankOf texts i])
        ∈ ((translatable texts).map Prod.fst).zip translated := by
      have hmem := List.getElem_mem hzrank
      rwa [List.getElem_zip, hgeti] at hmem
    have hnodup : ((((translatable texts).map Prod.fst).zip translated).map
        Prod.fst).Nodup := by
      rw [List.map_fst_zip _ _ (Nat.le_of_eq hlen2)]
      exact translatable_map_fst_nodup texts
    unfold translate_batch
    rw [if_neg (by simp [hemp]), if_neg (by simp [hsent]), hbatch]
    simp only [applyBatch]
    rw [setFold_getElem?_mem _ _ hnodup hmemz (by rw [hinit]; exact hi),
      List.getD_eq_getElem texts [] hi]
  · intro hbatch
    have hlen2 : ((translatable texts).map Prod.fst).length
        = (sentTexts texts).length := by
      rw [List.length_map, sentTexts, List.length_map]
    have hzrank : rankOf texts i
        < (((translatable texts).map Prod.fst).zip (sentTexts texts)).length := by
      rw [List.length_zip, hlen2, Nat.min_self]
      exact hranks
    have hmemz : (i, texts[i])
        ∈ ((translatable texts).map Prod.fst).zip (sentTexts texts) := by
      have hmem := List.getElem_mem hzrank
      rwa [List.getElem_zip, hgeti, hgets] at hmem
    have hnodup : ((((translatable texts).map Prod.fst).zip
        (sentTexts texts)).map Prod.fst).Nodup := by
      rw [List.map_fst_zip _ _ (Nat.le_of_eq hlen2)]
      exact translatable_map_fst_nodup texts
    unfold translate_batch
    rw [if_neg (by simp [hemp]), if_neg (by simp [hsent]), hbatch]
    simp only [translate_individually]
    rw [setFold_getElem?_mem _ _ hnodup hmemz (by rw [hinit]; exact hi),
      List.getD_eq_getElem texts [] hi]

/-- C3: a text whose trimmed form has length < 2 or consists only of digits
is returned unchanged by `translate`, is returned unchanged at its position
by `translate_batch`, and is never part of the list sent to the backend;
any other text is not skipped by the heuristic. -/
theorem skip_heuristic (t : PyStr) :
    (((pyStrip t).length < 2 ∨ pyIsDigit (pyStrip t) = true) →
      (∀ b, translate b t = t) ∧
      ∀ b texts i, i < texts.length → texts[i]? = some t →
        (translate_batch b texts)[i]? = some t ∧ t ∉ sentTexts texts) ∧
    (¬((pyStrip t).length < 2 ∨ pyIsDigit (pyStrip t) = true) →
      should_skip t = false) := by
  have hiff : should_skip t = true ↔
      ((pyStrip t).length < 2 ∨ pyIsDigit (pyStrip t) = true) := by
    simp [should_skip]
  constructor
  · intro hc
    have hsk : should_skip t = true := hiff.2 hc
    refine ⟨fun b => by simp [translate, hsk], ?_⟩
    intro b texts i hi hti
    have htieq : texts[i] = t := by
      rcases List.getElem?_eq_some_iff.1 hti with ⟨h1, h2⟩
      exact h2
    have hnot : t ∉ sentTexts texts := by
      intro hmem
      rcases List.mem_map.1 hmem with ⟨q, hq, hq2⟩
      have hqs := (mem_translatable hq).2.2
      rw [hq2, hsk] at hqs
      cases hqs
    refine ⟨?_, hnot⟩
    have hne : texts ≠ [] := by
      intro h
      subst h
      cases hi
    have hemp : texts.isEmpty = false := List.isEmpty_eq_false.2 hne
    have hinitv : (texts.map (fun t => if should_skip t then t else []))[i]?
        = some t := by
      rw [List.getElem?_map, List.getElem?_eq_getElem hi, htieq]
      simp [hsk]
    have hnm : ∀ {α : Type} (x : List (Nat × α)), (∀ p ∈ x, p.1 ∈
        (translatable texts).map Prod.fst) → ∀ p ∈ x, p.1 ≠ i := by
      intro α x hx p hp hpe
      rcases List.mem_map.1 (hx p hp) with ⟨q, hq, hq1⟩
      obtain ⟨hql, hqget, hqs⟩ := mem_translatable hq
      rw [hq1, hpe] at hqget
      rw [hti] at hqget
      rw [(Option.some.inj hqget).symm, hsk] at hqs
      cases hqs
    unfold translate_batch
    rw [if_neg (by simp [hemp])]
    by_cases hsent : (sentTexts texts).isEmpty
    · rw [if_pos hsent]
      exact hinitv
    · rw [if_neg hsent]
      cases b.batch (sentTexts texts) with
      | some translated =>
          simp only [applyBatch]
          have hsubz : ∀ p ∈ ((translatable texts).map Prod.fst).zip translated,
              p.1 ∈ (translatable texts).map Prod.fst := by
            intro p hp
            obtain ⟨x, y⟩ := p
            exact (List.of_mem_zip hp).1
          rw [setFold_getElem?_not_mem _ _ _ i
            (hnm (((translatable texts).map Prod.fst).zip translated) hsubz)]
          exact hinitv
      | none =>
          simp only [translate_individually]
          have hsubz : ∀ p ∈ ((translatable texts).map Prod.fst).zip
              (sentTexts texts), p.1 ∈ (translatable texts).map Prod.fst := by
            intro p hp
            obtain ⟨x, y⟩ := p
            exact (List.of_mem_zip hp).1
          rw [setFold_getElem?_not_mem _ _ _ i
            (hnm (((translatable texts).map Prod.fst).zip (sentTexts texts)) hsubz)]
          exact hinitv
  · intro hc
    cases h : should_skip t with
    | false => rfl
    | true => exact absurd (hiff.1 h) hc

/-- Witness for C2 at a concrete input: one non-skipped text, once with a
successful batch and once with a backend that always raises. -/
theorem translate_batch_fallback_witness :
    (translate_batch ⟨fun _ => some [some ['X', 'Y']], fun _ => none⟩
        [['a', 'b']])[0]? = some ['X', 'Y'] ∧
    (translate_batch ⟨fun _ => none, fun _ => none⟩
        [['a', 'b']])[0]? = some ['a', 'b'] := by
  constructor
  · obtain ⟨v, hv, hres⟩ :=
      (translate_batch_fallback ⟨fun _ => some [some ['X', 'Y']], fun _ => none⟩
        [['a', 'b']] 0 (by decide) (by decide)).1 [some ['X', 'Y']] rfl (by decide)
    rw [show rankOf [['a', 'b']] 0 = 0 from rfl] at hv
    rw [hres, (Option.some.inj hv).symm]
    decide
  · have h := (translate_batch_fallback ⟨fun _ => none, fun _ => none⟩
      [['a', 'b']] 0 (by decide) (by decide)).2 rfl
    rw [h]
    decide

/-- Witness for C3 at a concrete input: the all-digit text `"7"` is returned
verbatim and is not among the texts sent to the backend. -/
theorem skip_heuristic_witness :
    translate ⟨fun _ => none, fun _ => some (some ['X'])⟩ ['7'] = ['7'] ∧
    (translate_batch ⟨fun _ => none, fun _ => none⟩
        [['7'], ['a', 'b']])[0]? = some ['7'] ∧
    ['7'] ∉ sentTexts [['7'], ['a', 'b']] := by
  have h := (skip_heuristic ['7']).1 (by decide)
  have h2 := h.2 ⟨fun _ => none, fun _ => none⟩ [['7'], ['a', 'b']] 0
    (by decide) rfl
  exact ⟨h.1 _, h2.1, h2.2⟩

end TextTranslator

/-! Shared Python string/int primitives used by the two page-range parsers. -/

/-- `str.lower()`. -/
def pyLower (s : PyStr) : PyStr := s.map Char.toLower

/-- `str.split(sep)` for a one-character separator. -/
def splitChar (c : Char) : PyStr → List PyStr
  | [] => [[]]
  | x :: xs =>
      if x = c then [] :: splitChar c xs
      else
        match splitChar c xs with
        | [] => [[x]]
        | h :: t => (x :: h) :: t

/-- Rejoin string pieces on `"-"`; `part.split("-", 1)` is the head of
`part.split("-")` paired with its tail rejoined by this function. -/
def joinDash : List PyStr → PyStr
  | [] => []
  | [s] => s
  | s :: rest => s ++ '-' :: joinDash rest

/-- Value of a nonempty decimal digit string. -/
def digitsToNat (ds : PyStr) : Nat :=
  ds.foldl (fun a c => 10 * a + (c.toNat - 48)) 0

/-- Python `int(s)`: optional surrounding whitespace, an optional sign, then
one or more decimal digits; `none` models the raised `ValueError`.
(Underscore separators and non-ASCII digits are not modelled.) -/
def pyInt (s : PyStr) : Option Int :=
  match pyStrip s with
  | [] => none
  | c :: ds =>
      if c = '-' then
        if ds ≠ [] ∧ ds.all Char.isDigit then some (-(digitsToNat ds : Int))
        else none
      else if c = '+' then
        if ds ≠ [] ∧ ds.all Char.isDigit then some (digitsToNat ds : Int)
        else none
      else if (c :: ds).all Char.isDigit then some (digitsToNat (c :: ds) : Int)
      else none

/-- Python `range(a, b + 1)` over `Int`, as the list `[a, ..., b]`. -/
def rangeInt (a b : Int) : List Int :=
  (List.range (b + 1 - a).toNat).map (fun k : Nat => a + (k : Int))

/-- `sorted(pages)` for a `set` accumulated as a list: the ascending list of
the distinct elements. -/
def sortedDedup (l : List Int) : List Int :=
  List.insertionSort (fun a b => a ≤ b) l.dedup

/-- The clamped range contribution shared verbatim by both parsers:
`start = max(1, start); end = min(total_pages, end)`, then
`p - 1` for `p in range(start, end + 1)`; `none` in either position models a
piece rejected by `int()`, contributing nothing. -/
def pyRange (o1 o2 : Option Int) (total_pages : Nat) : List Int :=
  match o1, o2 with
  | some start, some stop =>
      (rangeInt (max 1 start) (min (total_pages : Int) stop)).map (fun p => p - 1)
  | _, _ => []

namespace PageRange

/-!
Model of `pdf_translator/utils/page_range.py`.  The Python `set` of pages is
modelled by accumulating every contribution in a list and deduplicating when
the final `sorted(pages)` is taken.
-/

/-- `_parse_single`. -/
def parse_single (part : PyStr) (total_pages : Nat) : List Int :=
  match pyInt part with
  | some page =>
      if 1 ≤ page ∧ page ≤ (total_pages : Int) then [page - 1] else []
  | none => []

/-- `_parse_range`: split on the first `"-"`, convert both pieces, clamp with
`start = max(1, start)`, `end = min(total_pages, end)`, and contribute
`{p - 1 for p in range(start, end + 1)}`.  Any `ValueError` (unpacking a
dash-free part, or a piece `int()` rejects) yields the empty set. -/
def parse_range (part : PyStr) (total_pages : Nat) : List Int :=
  match splitChar '-' part with
  | [] => []
  | [_] => []
  | s1 :: rest => pyRange (pyInt s1) (pyInt (joinDash rest)) total_pages

/-- `parse_page_range`. -/
def parse_page_range (page_range : PyStr) (total_pages : Nat) : List Int :=
  if page_range = [] ∨ pyStrip (pyLower page_range) = "all".toList then
    (List.range total_pages).map (fun k : Nat => (k : Int))
  else
    sortedDedup ((splitChar ',' (page_range.filter (fun c => c ≠ ' '))).foldl
      (fun acc part =>
        acc ++ (if part.contains '-' then parse_range part total_pages
                else parse_single part total_pages)) [])

end PageRange

namespace CoreTranslator

/-!
Model of `PDFTranslator._parse_page_range` in `pdf_translator/core/translator.py`.
It differs from the utils parser in two places: the `"all"` test does not
strip whitespace, and a range part is split with `part.split("-")` and
unpacked into exactly two names (three or more pieces raise `ValueError`).
-/

/-- `PDFTranslator._parse_page_range`. -/
def parse_page_range (page_range : PyStr) (total_pages : Nat) : List Int :=
  if page_range = [] ∨ pyLower page_range = "all".toList then
    (List.range total_pages).map (fun k : Nat => (k : Int))
  else
    sortedDedup ((splitChar ',' (page_range.filter (fun c => c ≠ ' '))).foldl
      (fun acc part =>
        acc ++ (if part.contains '-' then
                  match splitChar '-' part with
                  | [s1, s2] => pyRange (pyInt s1) (pyInt s2) total_pages
                  | _ => []
                else
                  match pyInt part with
                  | some p =>
                      if 1 ≤ p ∧ p ≤ (total_pages : Int) then [p - 1] else []
                  | none => [])) [])

end CoreTranslator

theorem mem_rangeInt {a b x : Int} : x ∈ rangeInt a b ↔ a ≤ x ∧ x ≤ b := by
  simp only [rangeInt, List.mem_map, List.mem_range]
  constructor
  · rintro ⟨k, hk, rfl⟩
    omega
  · intro h
    exact ⟨(x - a).toNat, by omega, by omega⟩

theorem sortedDedup_sorted (l : List Int) : (sortedDedup l).Sorted (· < ·) :=
  List.Sorted.lt_of_le (List.sorted_insertionSort _ l.dedup)
    ((List.perm_insertionSort _ l.dedup).symm.nodup (List.nodup_dedup l))

theorem mem_sortedDedup {l : List Int} {x : Int} :
    x ∈ sortedDedup l ↔ x ∈ l :=
  ((List.perm_insertionSort _ l.dedup).mem_iff).trans List.mem_dedup

theorem mem_foldl_append {α β : Type} (g : β → List α) (parts : List β) :
    ∀ (acc : List α) (x : α), x ∈ parts.foldl (fun a p => a ++ g p) acc →
      x ∈ acc ∨ ∃ p ∈ parts, x ∈ g p := by
  induction parts with
  | nil => exact fun acc x hx => Or.inl hx
  | cons q qs ih =>
      intro acc x hx
      rcases ih (acc ++ g q) x hx with h | ⟨p, hp, hxp⟩
      · rcases List.mem_append.1 h with h | h
        · exact Or.inl h
        · exact Or.inr ⟨q, List.mem_cons_self q qs, h⟩
      · exact Or.inr ⟨p, List.mem_cons_of_mem _ hp, hxp⟩

theorem pyRange_bounds (o1 o2 : Option Int) (total : Nat) :
    ∀ x ∈ pyRange o1 o2 total, 0 ≤ x ∧ x < (total : Int) := by
  intro x hx
  cases o1 with
  | none => cases hx
  | some start =>
      cases o2 with
      | none => cases hx
      | some stop =>
          simp only [pyRange, List.mem_map] at hx
          rcases hx with ⟨p, hp, rfl⟩
          have := mem_rangeInt.1 hp
          omega

theorem parse_single_bounds (part : PyStr) (total : Nat) :
    ∀ x ∈ PageRange.parse_single part total, 0 ≤ x ∧ x < (total : Int) := by
  intro x hx
  unfold PageRange.parse_single at hx
  cases h : pyInt part with
  | none => rw [h] at hx; cases hx
  | some page =>
      rw [h] at hx
      dsimp only at hx
      by_cases hc : 1 ≤ page ∧ page ≤ (total : Int)
      · rw [if_pos hc] at hx
        rcases List.mem_singleton.1 hx with rfl
        omega
      · rw [if_neg hc] at hx
        cases hx

theorem parse_range_bounds (part : PyStr) (total : Nat) :
    ∀ x ∈ PageRange.parse_range part total, 0 ≤ x ∧ x < (total : Int) := by
  intro x hx
  unfold PageRange.parse_range at hx
  rcases hsp : splitChar '-' part with - | ⟨s1, rest⟩
  · rw [hsp] at hx
    cases hx
  · rw [hsp] at hx
    rcases rest with - | ⟨s2, rest2⟩
    · cases hx
    · exact pyRange_bounds _ _ total x hx

/-- C9: for every expression and page count, `parse_page_range` returns a
strictly ascending, duplicate-free list of indices in `[0, total_pages)`;
in particular the result is empty when `total_pages = 0`, and malformed
tokens contribute nothing rather than raising (the model is total). -/
theorem parse_page_range_invariant (expr : PyStr) (total : Nat) :
    (PageRange.parse_page_range expr total).Sorted (· < ·) ∧
    (∀ x ∈ PageRange.parse_page_range expr total, 0 ≤ x ∧ x < (total : Int)) ∧
    (total = 0 → PageRange.parse_page_range expr total = []) := by
  have hbounds : ∀ x ∈ PageRange.parse_page_range expr total,
      0 ≤ x ∧ x < (total : Int) := by
    intro x hx
    unfold PageRange.parse_page_range at hx
    by_cases hall : expr = [] ∨ pyStrip (pyLower expr) = "all".toList
    · rw [if_pos hall] at hx
      simp only [List.mem_map, List.mem_range] at hx
      rcases hx with ⟨k, hk, rfl⟩
      omega
    · rw [if_neg hall] at hx
      rcases mem_foldl_append _ _ [] x (mem_sortedDedup.1 hx) with h | ⟨p, -, hxp⟩
      · cases h
      · by_cases hdash : p.contains '-'
        · rw [if_pos hdash] at hxp
          exact parse_range_bounds p total x hxp
        · rw [if_neg hdash] at hxp
          exact parse_single_bounds p total x hxp
  have hsorted : (PageRange.parse_page_range expr total).Sorted (· < ·) := by
    unfold PageRange.parse_page_range
    by_cases hall : expr = [] ∨ pyStrip (pyLower expr) = "all".toList
    · rw [if_pos hall]
      simp only [List.Sorted, List.pairwise_map]
      exact (List.pairwise_lt_range total).imp (fun h => by exact_mod_cast h)
    · rw [if_neg hall]
      exact sortedDedup_sorted _
  refine ⟨hsorted, hbounds, ?_⟩
  intro h0
  subst h0
  refine List.eq_nil_iff_forall_not_mem.2 (fun x hx => ?_)
  have := hbounds x hx
  omega

/-- Witness for C9 at a concrete input. -/
theorem parse_page_range_invariant_witness :
    ((1 : Int) ∈ PageRange.parse_page_range ['1', '-', '3'] 5) ∧
    (0 ≤ (1 : Int) ∧ (1 : Int) < ((5 : Nat) : Int)) :=
  ⟨by decide, (parse_page_range_invariant ['1', '-', '3'] 5).2.1 1 (by decide)⟩

theorem mem_dropWhile_of {α : Type} {p : α → Bool} {c : α} (hc : p c = false) :
    ∀ {l : List α}, c ∈ l → c ∈ l.dropWhile p := by
  intro l
  induction l with
  | nil => exact fun h => h
  | cons x xs ih =>
      intro h
      rw [List.dropWhile_cons]
      by_cases hx : p x = true
      · rw [if_pos hx]
        rcases List.mem_cons.1 h with rfl | h
        · rw [hc] at hx
          cases hx
        · exact ih h
      · rw [if_neg hx]
        exact h

theorem mem_pyStrip {c : Char} {s : PyStr} (hc : Char.isWhitespace c = false)
    (h : c ∈ s) : c ∈ pyStrip s :=
  List.mem_reverse.2 (mem_dropWhile_of hc
    (List.mem_reverse.2 (mem_dropWhile_of hc h)))

theorem pyInt_dash_nonpos {s : PyStr} {v : Int} (hd : '-' ∈ s)
    (h : pyInt s = some v) : v ≤ 0 := by
  have hdm : '-' ∈ pyStrip s := mem_pyStrip (by decide) hd
  unfold pyInt at h
  rcases hps : pyStrip s with - | ⟨c, ds⟩
  · rw [hps] at h
    cases h
  · rw [hps] at h hdm
    dsimp only at h
    by_cases hc1 : c = '-'
    · rw [if_pos hc1] at h
      by_cases hds : ds ≠ [] ∧ ds.all Char.isDigit
      · rw [if_pos hds] at h
        have := Option.some.inj h
        omega
      · rw [if_neg hds] at h
        cases h
    · rw [if_neg hc1] at h
      have hdsm : '-' ∈ ds := by
        rcases List.mem_cons.1 hdm with heq | hm
        · exact absurd heq.symm hc1
        · exact hm
      by_cases hc2 : c = '+'
      · rw [if_pos hc2] at h
        by_cases hds : ds ≠ [] ∧ ds.all Char.isDigit
        · have := List.all_eq_true.1 hds.2 '-' hdsm
          simp at this
        · rw [if_neg hds] at h
          cases h
      · rw [if_neg hc2] at h
        by_cases hds : (c :: ds).all Char.isDigit
        · have := List.all_eq_true.1 hds '-' (List.mem_cons_of_mem c hdsm)
          simp at this
        · rw [if_neg hds] at h
          cases h

theorem rangeInt_nil {a b : Int} (h : b < a) : rangeInt a b = [] := by
  unfold rangeInt
  rw [show (b + 1 - a).toNat = 0 by omega]
  rfl

theorem pyRange_none_right (o1 : Option Int) (total : Nat) :
    pyRange o1 none total = [] := by
  cases o1 <;> rfl

theorem pyRange_stop_nonpos (o1 : Option Int) {v : Int} (total : Nat)
    (hv : v ≤ 0) : pyRange o1 (some v) total = [] := by
  cases o1 with
  | none => rfl
  | some a =>
      unfold pyRange
      dsimp only
      rw [rangeInt_nil (by omega : min (total : Int) v < max 1 a)]
      rfl

theorem joinDash_cons₂ (a b : PyStr) (l : List PyStr) :
    joinDash (a :: b :: l) = a ++ '-' :: joinDash (b :: l) := rfl

theorem range_part_agree (part : PyStr) (total : Nat) :
    PageRange.parse_range part total =
      (match splitChar '-' part with
       | [s1, s2] => pyRange (pyInt s1) (pyInt s2) total
       | _ => []) := by
  unfold PageRange.parse_range
  rcases hsp : splitChar '-' part with - | ⟨s1, rest⟩
  · rfl
  · rcases rest with - | ⟨s2, rest2⟩
    · rfl
    · rcases rest2 with - | ⟨s3, rest3⟩
      · rfl
      · dsimp only
        cases hpy : pyInt (joinDash (s2 :: s3 :: rest3)) with
        | none => rw [pyRange_none_right]
        | some v =>
            have hv : v ≤ 0 := by
              refine pyInt_dash_nonpos ?_ hpy
              rw [joinDash_cons₂]
              exact List.mem_append.2 (Or.inr (List.mem_cons_self _ _))
            rw [pyRange_stop_nonpos _ _ hv]

/-- C10 counterexample: on the expression `" all"` (with a leading space)
and a one-page document, the utils parser returns every page while the
translator parser returns the empty list, so the two implementations do
not agree on every input. -/
theorem page_range_parsers_differ :
    PageRange.parse_page_range [' ', 'a', 'l', 'l'] 1 = [0] ∧
    CoreTranslator.parse_page_range [' ', 'a', 'l', 'l'] 1 = [] := by
  constructor <;> decide

/-- C10 amended: the two page-range parsers agree on every pair
`(expression, total_pages)` except when the lowercased expression equals
`"all"` only after stripping surrounding whitespace (the utils parser strips
before comparing with `"all"`, the translator parser does not). -/
theorem page_range_parsers_agree (expr : PyStr) (total : Nat)
    (h : pyStrip (pyLower expr) = "all".toList → pyLower expr = "all".toList) :
    PageRange.parse_page_range expr total =
      CoreTranslator.parse_page_range expr total := by
  unfold PageRange.parse_page_range CoreTranslator.parse_page_range
  by_cases h1 : expr = [] ∨ pyLower expr = "all".toList
  · have h2 : expr = [] ∨ pyStrip (pyLower expr) = "all".toList := by
      rcases h1 with h1 | h1
      · exact Or.inl h1
      · right
        rw [h1]
        rfl
    rw [if_pos h2, if_pos h1]
  · have h2 : ¬(expr = [] ∨ pyStrip (pyLower expr) = "all".toList) := by
      rintro (he | hs)
      · exact h1 (Or.inl he)
      · exact h1 (Or.inr (h hs))
    rw [if_neg h2, if_neg h1]
    congr 1
    refine List.foldl_ext _ _ [] (fun acc part hp => ?_)
    congr 1
    by_cases hd : part.contains '-'
    · rw [if_pos hd, if_pos hd, range_part_agree]
    · rw [if_neg hd, if_neg hd]
      rfl

/-- Witness for the amended C10 at a concrete input. -/
theorem page_range_parsers_agree_witness :
    PageRange.parse_page_range ['1', '-', '3', ',', '7'] 10 =
      CoreTranslator.parse_page_range ['1', '-', '3', ',', '7'] 10 :=
  page_range_parsers_agree ['1', '-', '3', ',', '7'] 10 (by decide)

namespace PDFExtractor

/-!
Model of `pdf_translator/core/pdf_extractor.py`.

A document is modelled by the plain text each page yields under
`page.get_text("text")` (the only page content the two audited methods
read).  Page numbers are `Nat`; negative Python page numbers take the same
out-of-range early return as too-large ones.
-/

/-- A PDF document, as the extracted plain text of each page. -/
abbrev Doc := List PyStr

/-- `PDFExtractor.MIN_TEXT_DENSITY`. -/
def MIN_TEXT_DENSITY : Nat := 50

/-- `PDFExtractor.page_count`. -/
def page_count (doc : Doc) : Nat := doc.length

/-- `PDFExtractor.has_text_on_page`. -/
def has_text_on_page (doc : Doc) (page_num : Nat) : Bool :=
  if page_num < page_count doc then
    MIN_TEXT_DENSITY ≤ (pyStrip (doc.getD page_num [])).length
  else false

/-- `PDFExtractor.is_digital_pdf` at the default `sample_pages = 3`. -/
def is_digital_pdf (doc : Doc) : Bool :=
  if page_count doc = 0 then false
  else
    let pages_to_check := min 3 (page_count doc)
    let step := max 1 (page_count doc / pages_to_check)
    let indices := (List.range pages_to_check).map (fun i => i * step)
    let pages_with_text := indices.countP (fun idx => has_text_on_page doc idx)
    decide (pages_to_check / 2 < pages_with_text)

end PDFExtractor

namespace PDFRenderer

/-!
Model of the font-size computation in
`PDFRenderer.replace_text_on_page` (`pdf_translator/core/pdf_renderer.py`).
Font sizes and box coordinates are Python floats, modelled as exact
rationals; the decimal literal `1.2` is the rational `6/5`.
-/

/-- The fields of `pdf_extractor.TextBlock` that the font-size computation
reads (`bbox` as `x0, y0, x1, y1`). -/
structure TextBlock where
  text : PyStr
  x0 : ℚ
  y0 : ℚ
  x1 : ℚ
  y1 : ℚ
  font_name : PyStr
  font_size : ℚ
  color : Int
  flags : Int

/-- `fitz.Rect.is_empty` for a finite rectangle: zero or negative width or
height ( `is_infinite` is false for every finite-coordinate rectangle and is
not modelled separately). -/
def rect_is_empty (b : TextBlock) : Bool := b.x1 ≤ b.x0 ∨ b.y1 ≤ b.y0

/-- The font size computed for one block in `replace_text_on_page`:
`size_ratio = original_len / max(translation_len, 1)`;
`font_size = min(block.font_size, block.font_size * size_ratio * 1.2)`;
`font_size = max(6, min(font_size, block.font_size))`. -/
def computed_font_size (block : TextBlock) (translation : PyStr) : ℚ :=
  let size_ratio : ℚ :=
    (block.text.length : ℚ) / ((max translation.length 1 : Nat) : ℚ)
  let fs := min block.font_size (block.font_size * size_ratio * (6 / 5))
  max 6 (min fs block.font_size)

/-- The `replacements` list built by step 1 of `replace_text_on_page`:
blank translations and empty rectangles are dropped, every other block is
kept with its translation and computed font size. -/
def replacements (blocks : List TextBlock) (translations : List PyStr) :
    List (TextBlock × PyStr × ℚ) :=
  (blocks.zip translations).filterMap (fun p =>
    if pyStrip p.2 = [] then none
    else if rect_is_empty p.1 then none
    else some (p.1, p.2, computed_font_size p.1 p.2))

/-- `PDFRenderer.replace_text_on_page`, up to the PyMuPDF redaction and
text-writing side effects: `none` models the `ValueError` raised on a
length mismatch, otherwise the plan of (block, translation, font size)
triples that step 2 inserts. -/
def replace_text_on_page (blocks : List TextBlock)
    (translations : List PyStr) :
    Option (List (TextBlock × PyStr × ℚ)) :=
  if blocks.length ≠ translations.length then none
  else some (replacements blocks translations)

end PDFRenderer

theorem sample_step_eq (n : Nat) (hn : n ≠ 0) :
    max 1 (n / min 3 n) = max 1 (n / 3) := by
  rcases Nat.lt_or_ge n 3 with h3 | h3
  · interval_cases n <;> decide
  · rw [show min 3 n = 3 from by omega]

theorem sample_index_lt (n i : Nat) (hi : i < min 3 n) :
    i * max 1 (n / 3) < n := by
  rcases Nat.lt_or_ge n 3 with h3 | h3
  · have h1 : max 1 (n / 3) = 1 := by omega
    rw [h1]
    omega
  · rw [show min 3 n = 3 from by omega] at hi
    have hstep : max 1 (n / 3) = n / 3 := by omega
    rw [hstep]
    interval_cases i <;> omega

/-- C6: `is_digital_pdf` samples `min(3, page_count)` page indices spaced by
`max(1, total_pages // 3)`, counts a sampled page as textual iff its
extracted text has trimmed length at least 50, and reports digital iff
strictly more than half of the sampled pages are textual; the empty
document is never digital. -/
theorem is_digital_pdf_spec (doc : PDFExtractor.Doc) :
    PDFExtractor.is_digital_pdf doc = true ↔
      (doc ≠ [] ∧
        min 3 doc.length <
          2 * ((List.range (min 3 doc.length)).map
              (fun i => i * max 1 (doc.length / 3))).countP
            (fun idx => decide (50 ≤ (pyStrip (doc.getD idx [])).length))) := by
  unfold PDFExtractor.is_digital_pdf PDFExtractor.page_count
  by_cases h0 : doc.length = 0
  · rw [if_pos h0]
    simp only [Bool.false_eq_true, false_iff]
    rintro ⟨hne, -⟩
    exact hne (List.eq_nil_of_length_eq_zero h0)
  · rw [if_neg h0]
    have hne : doc ≠ [] := fun h => h0 (by rw [h]; rfl)
    have hcount : ((List.range (min 3 doc.length)).map
          (fun i => i * max 1 (doc.length / min 3 doc.length))).countP
            (fun idx => PDFExtractor.has_text_on_page doc idx)
        = ((List.range (min 3 doc.length)).map
          (fun i => i * max 1 (doc.length / 3))).countP
            (fun idx => decide (50 ≤ (pyStrip (doc.getD idx [])).length)) := by
      rw [sample_step_eq doc.length h0]
      refine List.countP_congr ?_
      intro idx hidx
      rcases List.mem_map.1 hidx with ⟨i, hi, rfl⟩
      have hlt := sample_index_lt doc.length i (List.mem_range.1 hi)
      unfold PDFExtractor.has_text_on_page PDFExtractor.page_count
        PDFExtractor.MIN_TEXT_DENSITY
      rw [if_pos hlt]
    simp only
    rw [hcount, decide_eq_true_eq]
    constructor
    · intro h
      exact ⟨hne, by omega⟩
    · rintro ⟨-, h⟩
      omega

/-- Witness for C6 at the spec's concrete example: a 3-page document whose
pages 0 and 2 carry at least 50 characters of text and whose page 1 is
blank is classified digital. -/
theorem is_digital_pdf_spec_witness :
    ([List.replicate 60 'x', [], List.replicate 60 'y'] : PDFExtractor.Doc)
        ≠ [] ∧
      min 3 ([List.replicate 60 'x', [], List.replicate 60 'y'] :
          PDFExtractor.Doc).length <
        2 * ((List.range (min 3 ([List.replicate 60 'x', [], List.replicate
            60 'y'] : PDFExtractor.Doc).length)).map
            (fun i => i * max 1 (([List.replicate 60 'x', [], List.replicate
              60 'y'] : PDFExtractor.Doc).length / 3))).countP
          (fun idx => decide (50 ≤ (pyStrip (([List.replicate 60 'x', [],
            List.replicate 60 'y'] : PDFExtractor.Doc).getD idx
              [])).length)) :=
  (is_digital_pdf_spec [List.replicate 60 'x', [], List.replicate 60 'y']).1
    (by decide)

/-- C7: for every block and translation, the font size computed by
`replace_text_on_page` is the candidate
`min(original_size, original_size * (len0 / max(len1, 1)) * 1.2)` clamped to
`[6, original_size]` (as `max 6 (min candidate original_size)`); with
`original_font_size = 12`, original length 2 and translation length 40 the
computed size is exactly 6, and that is the size stored in the page plan. -/
theorem computed_font_size_spec :
    (∀ (block : PDFRenderer.TextBlock) (translation : PyStr),
      PDFRenderer.computed_font_size block translation =
        max 6 (min (min block.font_size (block.font_size *
            ((block.text.length : ℚ) / ((max translation.length 1 : Nat) : ℚ))
            * (6 / 5))) block.font_size)) ∧
    (∀ (block : PDFRenderer.TextBlock) (translation : PyStr),
      block.font_size = 12 → block.text.length = 2 → translation.length = 40 →
        PDFRenderer.computed_font_size block translation = 6) ∧
    (∀ (block : PDFRenderer.TextBlock) (translation : PyStr) (plan :
        List (PDFRenderer.TextBlock × PyStr × ℚ)),
      PDFRenderer.replace_text_on_page [block] [translation] = some plan →
      ∀ e ∈ plan, e.2.2 = PDFRenderer.computed_font_size e.1 e.2.1) := by
  refine ⟨fun block translation => rfl, ?_, ?_⟩
  · intro block translation h12 h2 h40
    unfold PDFRenderer.computed_font_size
    rw [h12, h2, h40]
    norm_num
  · intro block translation plan hplan e he
    unfold PDFRenderer.replace_text_on_page at hplan
    rw [if_neg (by simp)] at hplan
    rcases Option.some.inj hplan with rfl
    unfold PDFRenderer.replacements at he
    simp only [List.zip_cons_cons, List.zip_nil_right, List.filterMap] at he
    by_cases hb : pyStrip translation = []
    · rw [if_pos hb] at he
      cases he
    · rw [if_neg hb] at he
      by_cases hr : PDFRenderer.rect_is_empty block
      · rw [if_pos hr] at he
        cases he
      · rw [if_neg hr] at he
        rcases List.mem_singleton.1 he with rfl
        rfl

/-- Witness for C7 at a concrete block. -/
theorem computed_font_size_spec_witness :
    PDFRenderer.computed_font_size
      ⟨['h', 'i'], 0, 0, 10, 10, ['f'], 12, 0, 0⟩
      (List.replicate 40 'x') = 6 :=
  computed_font_size_spec.2.1 ⟨['h', 'i'], 0, 0, 10, 10, ['f'], 12, 0, 0⟩
    (List.replicate 40 'x') rfl rfl (by decide)

namespace TextRenderer

/-!
Model of `pdf_translator/core/renderer.py`.

The raster image is a height `h` by width `w` grid of RGB pixels, as a total
function (reads outside the grid never occur on the paths the claims need,
and the model keeps them total).  Box coordinates are the `map(int, box)`
integers.  NumPy basic slicing `a[y1:y2, x1:x2]` normalises each bound:
negative bounds count from the end, and bounds are clamped to the axis
length; `npIndex` performs that normalisation.

Glyph rasterisation (`draw.text`), font loading and text measurement live in
PIL; text measurement enters the model as an arbitrary measure function
`m text font_size bold = (width, height)`, and each drawing call is recorded
as an operation in a trace rather than as concrete glyph pixels.
-/

/-- An RGB pixel value. -/
abbrev Pix := Nat × Nat × Nat

/-- A raster image. -/
structure Image where
  h : Nat
  w : Nat
  pix : Nat → Nat → Pix

/-- An OCR region: the `map(int, box)` coordinates and the two formatting
flags `_draw_text` reads. -/
structure Region where
  x1 : Int
  y1 : Int
  x2 : Int
  y2 : Int
  bold : Bool
  underline : Bool

/-- NumPy slice-bound normalisation along an axis of length `n`. -/
def npIndex (n : Nat) (i : Int) : Nat :=
  if i < 0 then ((n : Int) + i).toNat else min n i.toNat

/-- NumPy scalar-index normalisation (negative indices count from the end;
out-of-range reads stay total in the model). -/
def npScalar (n : Nat) (i : Int) : Nat :=
  if i < 0 then ((n : Int) + i).toNat else i.toNat

/-- `a[start:stop:5]` index list along one axis (bounds already
normalised). -/
def stride5 (a b : Nat) : List Nat :=
  (List.range ((b - a + 4) / 5)).map (fun k => a + 5 * k)

/-- The slice assignment `result[r1:r2, c1:c2] = color` (bounds already
normalised, hence within the grid). -/
def fillRect (img : Image) (r1 r2 c1 c2 : Nat) (color : Pix) : Image :=
  { img with pix := fun y x =>
      if r1 ≤ y ∧ y < r2 ∧ c1 ≤ x ∧ x < c2 then color else img.pix y x }

/-- `np.median` of a list of naturals followed by `astype(np.uint8)`:
middle element of the sorted list, or the truncated mean of the two middle
elements for an even count. -/
def medianNat (l : List Nat) : Nat :=
  let s := List.insertionSort (fun a b : Nat => a ≤ b) l
  if s.length % 2 = 1 then s.getD (s.length / 2) 0
  else (s.getD (s.length / 2 - 1) 0 + s.getD (s.length / 2) 0) / 2

/-- `np.median(samples, axis=0)`: channel-wise median. -/
def medianPix (l : List Pix) : Pix :=
  (medianNat (l.map (fun p => p.1)),
   medianNat (l.map (fun p => p.2.1)),
   medianNat (l.map (fun p => p.2.2)))

/-- `TextRenderer._sample_background`: pad the box by 2, sample a stride-5
strip 3px outside each edge that is far enough from the border, and take
the channel-wise median, defaulting to white when no sample exists. -/
def sample_background (img : Image) (rg : Region) : Pix :=
  let x1 : Int := max 0 (rg.x1 - 2)
  let y1 : Int := max 0 (rg.y1 - 2)
  let x2 : Int := min (img.w : Int) (rg.x2 + 2)
  let y2 : Int := min (img.h : Int) (rg.y2 + 2)
  let xs := stride5 (npIndex img.w x1) (npIndex img.w x2)
  let ys := stride5 (npIndex img.h y1) (npIndex img.h y2)
  let samples :=
    (if 3 < y1 then xs.map (fun x => img.pix (npScalar img.h (y1 - 3)) x)
     else [])
    ++ (if y2 < (img.h : Int) - 3 then
          xs.map (fun x => img.pix (npScalar img.h (y2 + 2)) x)
        else [])
    ++ (if 3 < x1 then ys.map (fun y => img.pix y (npScalar img.w (x1 - 3)))
        else [])
    ++ (if x2 < (img.w : Int) - 3 then
          ys.map (fun y => img.pix y (npScalar img.w (x2 + 2)))
        else [])
  match samples with
  | [] => (255, 255, 255)
  | _ :: _ => medianPix samples

/-- `TextRenderer._get_contrasting_color`: the luminance comparison
`0.299 r + 0.587 g + 0.114 b < 128`, scaled by 1000 to stay in integers
(exact at every non-boundary colour). -/
def get_contrasting_color (bg : Pix) : Pix :=
  if 299 * bg.1 + 587 * bg.2.1 + 114 * bg.2.2 < 128000 then (255, 255, 255)
  else (0, 0, 0)

/-- One recorded rendering operation: a background-fill erase, a
`draw.text` call, or a `draw.line` underline call. -/
inductive ROp where
  | eraseOp (r1 r2 c1 c2 : Nat) (color : Pix)
  | textOp (x y : Int) (text : PyStr) (size : Int) (color : Pix)
  | lineOp (x1 y1 x2 y2 : Int) (color : Pix)
deriving DecidableEq

/-- Whether an operation is a background erase. -/
def isEraseOp : ROp → Bool
  | .eraseOp _ _ _ _ _ => true
  | _ => false

/-- Whether an operation draws translated content. -/
def isDrawOp : ROp → Bool
  | .eraseOp _ _ _ _ _ => false
  | _ => true

/-- The erase operation `_remove_text` performs for one region: fill the
2px-padded box (slice bounds normalised) with the sampled background. -/
def eraseOpFor (img : Image) (rg : Region) : ROp :=
  ROp.eraseOp (min img.h (max 0 (rg.y1 - 2)).toNat)
    (npIndex img.h (min (img.h : Int) (rg.y2 + 2)))
    (min img.w (max 0 (rg.x1 - 2)).toNat)
    (npIndex img.w (min (img.w : Int) (rg.x2 + 2)))
    (sample_background img rg)

/-- Apply one recorded erase to the working copy. -/
def applyErase (cur : Image) : ROp → Image
  | ROp.eraseOp r1 r2 c1 c2 color => fillRect cur r1 r2 c1 c2 color
  | _ => cur

/-- The loop of `_remove_text`: the background is always sampled from the
original image while the fills accumulate in the working copy. -/
def remove_text_aux (img : Image) :
    List Region → Image → List Pix → List ROp → Image × List Pix × List ROp
  | [], cur, colors, ops => (cur, colors, ops)
  | rg :: rest, cur, colors, ops =>
      remove_text_aux img rest (applyErase cur (eraseOpFor img rg))
        (colors ++ [get_contrasting_color (sample_background img rg)])
        (ops ++ [eraseOpFor img rg])

/-- `TextRenderer._remove_text`: for every region (with no degeneracy
check), sample the background from the original image, record the contrast
colour, and fill the 2px-padded box in the working copy.  Returns the
erased image, the text colours, and the erase-operation trace. -/
def remove_text (img : Image) (regions : List Region) :
    Image × List Pix × List ROp :=
  remove_text_aux img regions img [] []

/-- `font_size = max(8, min(int(height * 0.75), 48))`; the float product
`height * 0.75` is exact and `int()` truncates, giving `⌊3 h / 4⌋` for the
positive heights that reach this line. -/
def initial_font_size (height : Int) : Int :=
  max 8 (min (3 * height / 4) 48)

/-- The shrink-to-fit loop of `_draw_text`, on fuel:
`while text_width > width * 0.95 and font_size > 6: font_size -= 1;
re-measure`.  The float comparison `tw > width * 0.95` is exact as
`20 * tw > 19 * width` at every realistic width. -/
def fit_aux (m : PyStr → Int → Bool → Int × Int) (text : PyStr) (bold : Bool)
    (width : Int) : Nat → Int → Int × Int → Int × (Int × Int)
  | 0, fs, dims => (fs, dims)
  | fuel + 1, fs, dims =>
      if 20 * dims.1 > 19 * width ∧ 6 < fs then
        fit_aux m text bold width fuel (fs - 1) (m text (fs - 1) bold)
      else (fs, dims)

/-- Initial measurement followed by the shrink loop; the fuel
`(fs₀ - 6).toNat` covers every possible decrement. -/
def fit_font (m : PyStr → Int → Bool → Int × Int) (text : PyStr)
    (bold : Bool) (width height : Int) : Int × (Int × Int) :=
  let fs0 := initial_font_size height
  fit_aux m text bold width (fs0 - 6).toNat fs0 (m text fs0 bold)

/-- The loop body of `_draw_text` for one `(region, translation, colour)`
triple: skip blank translations and degenerate boxes, otherwise record one
`draw.text` call at the fitted size and centred vertical position, plus an
underline `draw.line` call when flagged. -/
def drawStep (m : PyStr → Int → Bool → Int × Int) (ops : List ROp)
    (p : Region × PyStr × Pix) : List ROp :=
  if pyStrip p.2.1 = [] then ops
  else if p.1.x2 - p.1.x1 ≤ 0 ∨ p.1.y2 - p.1.y1 ≤ 0 then ops
  else
    let r := fit_font m p.2.1 p.1.bold (p.1.x2 - p.1.x1) (p.1.y2 - p.1.y1)
    let text_y := p.1.y1 + Int.fdiv ((p.1.y2 - p.1.y1) - r.2.2) 2
    ops ++ [ROp.textOp p.1.x1 text_y p.2.1 r.1 p.2.2]
      ++ (if p.1.underline then
            [ROp.lineOp p.1.x1 (text_y + r.2.2 + 1) (p.1.x1 + r.2.1)
              (text_y + r.2.2 + 1) p.2.2]
          else [])

/-- The loop of `_draw_text` over the zipped triples. -/
def draw_text_aux (m : PyStr → Int → Bool → Int × Int) :
    List (Region × PyStr × Pix) → List ROp → List ROp
  | [], ops => ops
  | p :: rest, ops => draw_text_aux m rest (drawStep m ops p)

/-- `TextRenderer._draw_text` as its operation trace:
`for region, text, text_color in zip(regions, translations, text_colors)`. -/
def draw_text (m : PyStr → Int → Bool → Int × Int) (regions : List Region)
    (translations : List PyStr) (colors : List Pix) : List ROp :=
  draw_text_aux m (regions.zip (translations.zip colors)) []

/-- `TextRenderer.render_translations`: erase every region first, then draw
every translation, on one working copy; the drawn-glyph pixels live in PIL
and are represented by the trace, so the returned image is the erased
working copy. -/
def render_translations (m : PyStr → Int → Bool → Int × Int) (img : Image)
    (regions : List Region) (translations : List PyStr) :
    Image × List ROp :=
  if regions.isEmpty then (img, [])
  else
    ((remove_text img regions).1,
      (remove_text img regions).2.2 ++
        draw_text m regions translations (remove_text img regions).2.1)

/-- The spec's stated initial-size formula with `round`; kept only to
compare against the code's truncating `initial_font_size`. -/
def spec_initial_font_size (height : Int) : Int :=
  max 8 (min (round ((3 * height : ℚ) / 4)) 48)

theorem remove_text_aux_ops (img : Image) :
    ∀ (regions : List Region) (cur : Image) (colors : List Pix)
      (ops : List ROp),
      (remove_text_aux img regions cur colors ops).2.2
        = ops ++ regions.map (eraseOpFor img) := by
  intro regions
  induction regions with
  | nil =>
      intro cur colors ops
      simp [remove_text_aux]
  | cons rg rest ih =>
      intro cur colors ops
      simp only [remove_text_aux, List.map_cons]
      rw [ih]
      simp

theorem remove_text_ops (img : Image) (regions : List Region) :
    (remove_text img regions).2.2 = regions.map (eraseOpFor img) := by
  rw [remove_text, remove_text_aux_ops]
  rfl

theorem drawStep_sub (m : PyStr → Int → Bool → Int × Int) (ops : List ROp)
    (p : Region × PyStr × Pix) :
    ∀ op ∈ drawStep m ops p, op ∈ ops ∨ isDrawOp op = true := by
  intro op h
  simp only [drawStep] at h
  by_cases h1 : pyStrip p.2.1 = []
  · rw [if_pos h1] at h
    exact Or.inl h
  · rw [if_neg h1] at h
    by_cases h2 : p.1.x2 - p.1.x1 ≤ 0 ∨ p.1.y2 - p.1.y1 ≤ 0
    · rw [if_pos h2] at h
      exact Or.inl h
    · rw [if_neg h2] at h
      rcases List.mem_append.1 h with h | h
      · rcases List.mem_append.1 h with h | h
        · exact Or.inl h
        · rcases List.mem_singleton.1 h with rfl
          exact Or.inr rfl
      · by_cases h3 : p.1.underline = true
        · rw [if_pos h3] at h
          rcases List.mem_singleton.1 h with rfl
          exact Or.inr rfl
        · rw [if_neg h3] at h
          cases h

theorem draw_text_aux_draw (m : PyStr → Int → Bool → Int × Int) :
    ∀ (l : List (Region × PyStr × Pix)) (ops : List ROp),
      (∀ op ∈ ops, isDrawOp op = true) →
      ∀ op ∈ draw_text_aux m l ops, isDrawOp op = true := by
  intro l
  induction l with
  | nil => exact fun ops hops op h => hops op h
  | cons p rest ih =>
      intro ops hops op h
      rw [draw_text_aux] at h
      refine ih _ ?_ op h
      intro op' hop'
      rcases drawStep_sub m ops p op' hop' with h' | h'
      · exact hops op' h'
      · exact h'

theorem draw_not_erase {op : ROp} (h : isDrawOp op = true) :
    isEraseOp op = false := by
  cases op with
  | eraseOp r1 r2 c1 c2 color => cases h
  | textOp x y text size color => rfl
  | lineOp x1 y1 x2 y2 color => rfl

/-- C4: in the trace of `render_translations`, every background erase comes
before every draw operation: if position `i` holds a draw operation and
position `j` an erase, then `j < i`.  The erase pass runs to completion on
the single working copy before the first draw. -/
theorem erase_before_draw (m : PyStr → Int → Bool → Int × Int) (img : Image)
    (regions : List Region) (translations : List PyStr) (i j : Nat)
    (oi oj : ROp)
    (hi : (render_translations m img regions translations).2[i]? = some oi)
    (hj : (render_translations m img regions translations).2[j]? = some oj)
    (hdraw : isDrawOp oi = true) (herase : isEraseOp oj = true) : j < i := by
  by_cases hemp : regions.isEmpty
  · simp only [render_translations, if_pos hemp] at hi
    cases hi
  · simp only [render_translations, if_neg hemp] at hi hj
    have hEall : ∀ op ∈ (remove_text img regions).2.2, isEraseOp op = true := by
      rw [remove_text_ops]
      intro op hop
      rcases List.mem_map.1 hop with ⟨rg, -, rfl⟩
      rfl
    have hDall : ∀ op ∈ draw_text m regions translations
        (remove_text img regions).2.1, isDrawOp op = true :=
      draw_text_aux_draw m _ [] (fun op h => by cases h)
    by_cases hiE : i < (remove_text img regions).2.2.length
    · rw [List.getElem?_append_left hiE] at hi
      rcases List.getElem?_eq_some_iff.1 hi with ⟨hlt, heq⟩
      have := hEall oi (heq ▸ List.getElem_mem hlt)
      rw [draw_not_erase hdraw] at this
      cases this
    · push_neg at hiE
      by_cases hjE : j < (remove_text img regions).2.2.length
      · omega
      · push_neg at hjE
        rw [List.getElem?_append_right hjE] at hj
        rcases List.getElem?_eq_some_iff.1 hj with ⟨hlt, heq⟩
        have := hDall oj (heq ▸ List.getElem_mem hlt)
        rw [draw_not_erase this] at herase
        cases herase

/-- Witness for C4 at a concrete image, region and measure function: the
trace holds the erase at index 0 and the draw at index 1. -/
theorem erase_before_draw_witness :
    ((render_translations (fun _ _ _ => (1, 1)) ⟨20, 20, fun _ _ => (0, 0, 0)⟩
        [⟨2, 2, 18, 12, false, false⟩] [['a', 'b']]).2[1]? =
      some (ROp.textOp 2 6 ['a', 'b'] 8 (255, 255, 255))) ∧ (0 : Nat) < 1 :=
  ⟨by decide,
    erase_before_draw (fun _ _ _ => (1, 1)) ⟨20, 20, fun _ _ => (0, 0, 0)⟩
      [⟨2, 2, 18, 12, false, false⟩] [['a', 'b']] 1 0
      (ROp.textOp 2 6 ['a', 'b'] 8 (255, 255, 255))
      (ROp.eraseOp 0 14 0 20 (0, 0, 0))
      (by decide) (by decide) (by decide) (by decide)⟩

theorem fit_aux_spec (m : PyStr → Int → Bool → Int × Int) (text : PyStr)
    (bold : Bool) (width : Int) :
    ∀ (n : Nat) (fs : Int) (d : Int × Int), 6 ≤ fs → d = m text fs bold →
      6 ≤ (fit_aux m text bold width n fs d).1 ∧
      (fit_aux m text bold width n fs d).1 ≤ fs ∧
      (fit_aux m text bold width n fs d).2 =
        m text (fit_aux m text bold width n fs d).1 bold ∧
      ((fs - 6).toNat ≤ n →
        (fit_aux m text bold width n fs d).1 = 6 ∨
        20 * (fit_aux m text bold width n fs d).2.1 ≤ 19 * width) := by
  intro n
  induction n with
  | zero =>
      intro fs d h6 hd
      simp only [fit_aux]
      exact ⟨h6, le_refl _, hd, fun hf => Or.inl (by omega)⟩
  | succ k ih =>
      intro fs d h6 hd
      simp only [fit_aux]
      by_cases hc : 20 * d.1 > 19 * width ∧ 6 < fs
      · rw [if_pos hc]
        obtain ⟨a1, a2, a3, a4⟩ :=
          ih (fs - 1) (m text (fs - 1) bold) (by omega) rfl
        exact ⟨a1, le_trans a2 (by omega), a3, fun hf => a4 (by omega)⟩
      · rw [if_neg hc]
        refine ⟨h6, le_refl _, hd, fun _ => ?_⟩
        rcases not_and_or.1 hc with h | h
        · exact Or.inr (by simpa using h)
        · exact Or.inl (by omega)

/-- C5 (amended): the fitter's initial size is
`max(8, min(trunc(h · 0.75), 48))` — truncation, not rounding — and the
loop decrements by 1 with re-measurement while the measured width exceeds
0.95 of the box width and the size exceeds 6; the final size lies in
`[6, 48]`, never exceeds the initial size, carries its own measurement,
and on exit either the floor 6 was reached or the fit was achieved. -/
theorem fit_font_spec (m : PyStr → Int → Bool → Int × Int) (text : PyStr)
    (bold : Bool) (width height : Int) :
    initial_font_size height = max 8 (min (3 * height / 4) 48) ∧
    6 ≤ (fit_font m text bold width height).1 ∧
    (fit_font m text bold width height).1 ≤ initial_font_size height ∧
    initial_font_size height ≤ 48 ∧
    (fit_font m text bold width height).2 =
      m text (fit_font m text bold width height).1 bold ∧
    ((fit_font m text bold width height).1 = 6 ∨
      20 * (m text (fit_font m text bold width height).1 bold).1
        ≤ 19 * width) := by
  have h8 : 6 ≤ initial_font_size height := by
    unfold initial_font_size
    omega
  have h48 : initial_font_size height ≤ 48 := by
    unfold initial_font_size
    omega
  simp only [fit_font]
  obtain ⟨a1, a2, a3, a4⟩ := fit_aux_spec m text bold width
    ((initial_font_size height - 6).toNat) (initial_font_size height)
    (m text (initial_font_size height) bold) h8 rfl
  refine ⟨rfl, a1, a2, h48, a3, ?_⟩
  rcases a4 (le_refl _) with h | h
  · exact Or.inl h
  · right
    rw [← a3]
    exact h

/-- C5 counterexample: at box height 13 the code computes the initial size
`int(13 * 0.75) = 9` while the claim's formula `round(13 * 0.75) = 10`
predicts 10; with a measure function that reports zero width no decrement
occurs, so the fitted size is 9, not the claimed 10. -/
theorem initial_font_size_truncates :
    (fit_font (fun _ _ _ => (0, 0)) ['a'] false 100 13).1 = 9 ∧
    spec_initial_font_size 13 = 10 := by
  constructor
  · decide
  · unfold spec_initial_font_size
    norm_num [round_eq]

theorem draw_text_aux_append (m : PyStr → Int → Bool → Int × Int) :
    ∀ (A B : List (Region × PyStr × Pix)) (ops : List ROp),
      draw_text_aux m (A ++ B) ops = draw_text_aux m B (draw_text_aux m A ops) := by
  intro A
  induction A with
  | nil => exact fun B ops => rfl
  | cons p rest ih =>
      intro B ops
      simp only [List.cons_append, draw_text_aux]
      exact ih B _

theorem drawStep_degenerate (m : PyStr → Int → Bool → Int × Int)
    (ops : List ROp) (p : Region × PyStr × Pix)
    (hdeg : p.1.x2 - p.1.x1 ≤ 0 ∨ p.1.y2 - p.1.y1 ≤ 0) :
    drawStep m ops p = ops := by
  unfold drawStep
  by_cases h1 : pyStrip p.2.1 = []
  · rw [if_pos h1]
  · rw [if_neg h1, if_pos hdeg]

/-- C8 counterexample: the zero-area box `(5,5,5,5)` inside an all-black
10×10 image is NOT skipped by the erase pass: its 2px-padded box is filled
with the white fallback background, so pixel `(3,3)` of the working copy is
modified on the region's account. -/
theorem zero_area_box_still_erased :
    (remove_text ⟨10, 10, fun _ _ => (0, 0, 0)⟩
        [⟨5, 5, 5, 5, false, false⟩]).1.pix 3 3 = (255, 255, 255) ∧
    (Image.mk 10 10 (fun _ _ => (0, 0, 0))).pix 3 3 = (0, 0, 0) := by
  exact ⟨by decide, rfl⟩

/-- C8 (amended): a region whose box has non-positive width or height is
skipped by the draw pass — its triple contributes no draw operation, the
trace being exactly that of the input without it — but the erase pass still
processes it: its padded-box fill is present in the erase trace. -/
theorem degenerate_region_skipped (m : PyStr → Int → Bool → Int × Int)
    (img : Image) (rs₁ rs₂ : List Region) (rg : Region)
    (ts₁ ts₂ : List PyStr) (t : PyStr) (cs₁ cs₂ : List Pix) (c : Pix)
    (h1 : rs₁.length = ts₁.length) (h2 : ts₁.length = cs₁.length)
    (hdeg : rg.x2 - rg.x1 ≤ 0 ∨ rg.y2 - rg.y1 ≤ 0) :
    draw_text m (rs₁ ++ rg :: rs₂) (ts₁ ++ t :: ts₂) (cs₁ ++ c :: cs₂) =
      draw_text m (rs₁ ++ rs₂) (ts₁ ++ ts₂) (cs₁ ++ cs₂) ∧
    eraseOpFor img rg ∈ (remove_text img (rs₁ ++ rg :: rs₂)).2.2 := by
  constructor
  · unfold draw_text
    have hz1 : (ts₁ ++ t :: ts₂).zip (cs₁ ++ c :: cs₂)
        = ts₁.zip cs₁ ++ (t, c) :: ts₂.zip cs₂ := by
      rw [List.zip_append h2]
      rfl
    have hz2 : (ts₁ ++ ts₂).zip (cs₁ ++ cs₂)
        = ts₁.zip cs₁ ++ ts₂.zip cs₂ := List.zip_append h2
    have hlen : rs₁.length = (ts₁.zip cs₁).length := by
      rw [List.length_zip, ← h2, ← h1, Nat.min_self]
    rw [hz1, hz2, List.zip_append hlen, List.zip_append hlen]
    rw [show (rg :: rs₂).zip ((t, c) :: ts₂.zip cs₂)
        = (rg, t, c) :: rs₂.zip (ts₂.zip cs₂) from rfl]
    rw [draw_text_aux_append, draw_text_aux_append]
    rw [show draw_text_aux m ((rg, t, c) :: rs₂.zip (ts₂.zip cs₂))
          (draw_text_aux m (rs₁.zip (ts₁.zip cs₁)) [])
        = draw_text_aux m (rs₂.zip (ts₂.zip cs₂))
          (drawStep m (draw_text_aux m (rs₁.zip (ts₁.zip cs₁)) []) (rg, t, c))
        from rfl]
    rw [drawStep_degenerate m _ (rg, t, c) hdeg]
  · rw [remove_text_ops]
    exact List.mem_map_of_mem (eraseOpFor img)
      (List.mem_append.2 (Or.inr (List.mem_cons_self rg rs₂)))

/-- Witness for the amended C8 at concrete inputs: a zero-width region
between two normal regions contributes no draw operation but its erase is
recorded. -/
theorem degenerate_region_skipped_witness :
    draw_text (fun _ _ _ => (1, 1))
        [⟨0, 0, 4, 4, false, false⟩, ⟨5, 5, 5, 9, false, false⟩]
        [['a', 'b'], ['c', 'd']] [(0, 0, 0), (0, 0, 0)] =
      draw_text (fun _ _ _ => (1, 1)) [⟨0, 0, 4, 4, false, false⟩]
        [['a', 'b']] [(0, 0, 0)] ∧
    eraseOpFor ⟨10, 10, fun _ _ => (0, 0, 0)⟩ ⟨5, 5, 5, 9, false, false⟩ ∈
      (remove_text ⟨10, 10, fun _ _ => (0, 0, 0)⟩
        [⟨0, 0, 4, 4, false, false⟩, ⟨5, 5, 5, 9, false, false⟩]).2.2 := by
  have h := degenerate_region_skipped (fun _ _ _ => (1, 1))
    ⟨10, 10, fun _ _ => (0, 0, 0)⟩ [⟨0, 0, 4, 4, false, false⟩] []
    ⟨5, 5, 5, 9, false, false⟩ [['a', 'b']] [] ['c', 'd'] [(0, 0, 0)] []
    (0, 0, 0) rfl rfl (Or.inl (by decide))
  simpa using h

end TextRenderer

end PdfTranslator
